import Mathlib

/-!
Shallow embedding of psfws/utils.py (psf-weather-station) in Lean 4, together
with theorems checking the natural-language specification against the code.

Modelling conventions:
- numpy floating point arithmetic is idealised as real arithmetic (ℝ);
- a numpy 1-D array is a Lean list (or, for aligned array arithmetic, a
  function Fin n → ℝ);
- a pandas series is a list of (timestamp, value) pairs with timestamps in
  minutes (ℤ);
- scipy's UnivariateSpline is external to the repository and is abstracted as
  a parameter (SplineM) giving the value of the fitted spline;
- numpy's random generator is abstracted as an oracle function giving the
  index chosen by rng.choice;
- a Python `raise` is modelled by Except.error.
-/

namespace psfws

/-- A 3-vector of reals, modelling a numpy array of length 3. -/
@[ext] structure Vec3 where
  x : ℝ
  y : ℝ
  z : ℝ

instance : Add Vec3 := ⟨fun a b => ⟨a.x + b.x, a.y + b.y, a.z + b.z⟩⟩

instance : SMul ℝ Vec3 := ⟨fun r a => ⟨r * a.x, r * a.y, r * a.z⟩⟩

instance : Zero Vec3 := ⟨⟨0, 0, 0⟩⟩

/-- Dot product of 3-vectors (np.dot). -/
def dot (a b : Vec3) : ℝ := a.x * b.x + a.y * b.y + a.z * b.z

/-- Cross product of 3-vectors (np.cross). -/
def cross (a b : Vec3) : Vec3 :=
  ⟨a.y * b.z - a.z * b.y, a.z * b.x - a.x * b.z, a.x * b.y - a.y * b.x⟩

/-- Degrees to radians (np.deg2rad / np.radians). -/
noncomputable def deg2rad (d : ℝ) : ℝ := d * Real.pi / 180

/-- Source translation of get_obs_nez: North, East and zenith unit vectors of
the observatory at Earth latitude, longitude (in radians). -/
noncomputable def get_obs_nez (lat lon : ℝ) : Vec3 × Vec3 × Vec3 :=
  let north : Vec3 := ⟨-Real.cos lon * Real.sin lat,
                       -Real.sin lon * Real.sin lat,
                       Real.cos lat⟩
  let zenith : Vec3 := ⟨Real.cos lon * Real.cos lat,
                        Real.sin lon * Real.cos lat,
                        Real.sin lat⟩
  let east := cross north zenith
  (north, east, zenith)

/-- Source translation of get_both_nez: observatory N/E/zenith triple and the
sky-frame (north, east, boresight) triple, for observing position alt, az
(degrees) from lat, lon (degrees).  Division by a zero norm follows the Lean
convention x / 0 = 0 (numpy would produce non-finite entries there). -/
noncomputable def get_both_nez (alt az lat lon : ℝ) :
    (Vec3 × Vec3 × Vec3) × (Vec3 × Vec3 × Vec3) :=
  let lat' := deg2rad lat
  let lon' := deg2rad lon
  let alt' := deg2rad alt
  let az' := deg2rad az
  let NEZ := get_obs_nez lat' lon'
  let N := NEZ.1
  let E := NEZ.2.1
  let Z := NEZ.2.2
  let compass_dir := Real.cos az' • N + Real.sin az' • E
  let boresight := Real.sin alt' • Z + Real.cos alt' • compass_dir
  let ncp : Vec3 := ⟨0, 0, 1⟩
  let east0 := cross ncp boresight
  let east := (1 / Real.sqrt (dot east0 east0)) • east0
  let north := cross boresight east
  ((N, E, Z), (north, east, boresight))

/-- Arithmetic mean of a list (np.mean); mean [] = 0 by the 0/0 = 0 convention. -/
noncomputable def mean (l : List ℝ) : ℝ := l.sum / l.length

/-- np.linspace a b n with endpoint included: n samples a + i*(b-a)/(n-1). -/
noncomputable def linspace (a b : ℝ) (n : ℕ) : List ℝ :=
  (List.range n).map (fun i : ℕ => a + (b - a) * (i : ℝ) / ((n - 1 : ℕ) : ℝ))

/-- np.trapz y x: trapezoidal rule over consecutive sample pairs. -/
noncomputable def trapz : List ℝ → List ℝ → ℝ
  | y0 :: y1 :: ys, x0 :: x1 :: xs => (x1 - x0) * (y0 + y1) / 2 + trapz (y1 :: ys) (x1 :: xs)
  | _, _ => 0
termination_by y x => y.length

/-- Abstraction of scipy's UnivariateSpline: eval s x y gives the value
function of the spline fitted to data (x, y) with smoothing factor s.  The
spline algorithm is external to this repository, so it is kept abstract. -/
structure SplineM where
  eval : ℝ → List ℝ → List ℝ → ℝ → ℝ

/-- Source translation of interpolate (the ddz=False branch, the one used by
integrate_in_bins): evaluate the spline fitted to (x, y) with smoothing s at
each point of new_x. -/
noncomputable def interpolate (M : SplineM) (x y new_x : List ℝ) (s : ℝ) : List ℝ :=
  new_x.map (M.eval s x y)

/-- Source translation of integrate_in_bins: resample on a 1000-point grid,
filter the samples strictly inside each bin, interpolate log cn2 there with
smoothing 0, exponentiate, integrate with the trapezoidal rule and scale by
1000 (km to m). -/
noncomputable def integrate_in_bins (M : SplineM) (cn2 h edges : List ℝ) : List ℝ :=
  let h_samples := linspace (edges.headD 0) (edges.getLast?.getD 0) 1000
  let J := (List.range (edges.length - 1)).map (fun i =>
    let h_i := h_samples.filter (fun xv => xv < edges.getD (i + 1) 0 ∧ edges.getD i 0 < xv)
    let cn2_i := (interpolate M h (cn2.map Real.log) h_i 0).map Real.exp
    trapz cn2_i h_i)
  J.map (fun jv => jv * 1000)

/-- np.median: middle element of the sorted list, or the average of the two
middle elements for even length. -/
noncomputable def median (l : List ℝ) : ℝ :=
  let s := l.insertionSort (· ≤ ·)
  if l.length % 2 = 1 then s.getD (l.length / 2) 0
  else (s.getD (l.length / 2 - 1) 0 + s.getD (l.length / 2) 0) / 2

/-- Pearson correlation coefficient, np.corrcoef(xs, ys)[0][1]; the 1/n
normalisations of covariance and standard deviations cancel. -/
noncomputable def pearson (xs ys : List ℝ) : ℝ :=
  let mx := mean xs
  let my := mean ys
  let cov := ((xs.zip ys).map (fun p => (p.1 - mx) * (p.2 - my))).sum
  let sx := Real.sqrt ((xs.map (fun a => (a - mx) ^ 2)).sum)
  let sy := Real.sqrt ((ys.map (fun b => (b - my) ^ 2)).sum)
  cov / (sx * sy)

/-- Raw telemetry: pandas series modelled as lists of (timestamp, value). -/
structure Telemetry where
  wind_direction : List (ℤ × ℝ)
  wind_speed : List (ℤ × ℝ)
  temperature : List (ℤ × ℝ)

/-- Output dict of process_telemetry. -/
structure ProcessedTel where
  phi : List (ℤ × ℝ)
  speed : List (ℤ × ℝ)
  t : List (ℤ × ℝ)

/-- Source translation of process_telemetry: mask zeros (and speeds ≥ 40 m/s)
and convert temperatures from Celsius to Kelvin. -/
noncomputable def process_telemetry (telemetry : Telemetry) : ProcessedTel :=
  let tel_dir := telemetry.wind_direction
  let tel_speed := telemetry.wind_speed
  let tel_temp := telemetry.temperature
  { phi := tel_dir.filter (fun p => p.2 ≠ 0),
    speed := tel_speed.filter (fun p => p.2 ≠ 0 ∧ p.2 < 40),
    t := (tel_temp.filter (fun p => p.2 ≠ 0)).map (fun p => (p.1, p.2 + 273.15)) }

/-- Output dict of match_telemetry. -/
structure MatchedTel where
  speed : List ℝ
  phi : List ℝ
  t : List ℝ
  u : List ℝ
  v : List ℝ

/-- The index selection telemetry.index[abs(date - telemetry.index) < 30min]
shared by match_telemetry's three series: the entries whose timestamps lie
strictly within 30 minutes of the reference timestamp d. -/
def window (series : List (ℤ × ℝ)) (d : ℤ) : List (ℤ × ℝ) :=
  series.filter (fun p => |d - p.1| < 30)

/-- Source translation of match_telemetry: timestamps are in minutes, the
window is the strict ±30 minute ball around each forecast date. -/
noncomputable def match_telemetry (telemetry : ProcessedTel) (forecast_dates : List ℤ) :
    MatchedTel × List ℤ :=
  let n := forecast_dates.length
  let speed := telemetry.speed
  let direction := telemetry.phi
  let temp := telemetry.t
  let speed_ids := fun i => window speed (forecast_dates.getD i 0)
  let dir_ids := fun i => window direction (forecast_dates.getD i 0)
  let temp_ids := fun i => window temp (forecast_dates.getD i 0)
  let ids_to_keep := (List.range n).filter
    (fun i => speed_ids i ≠ [] ∧ dir_ids i ≠ [] ∧ temp_ids i ≠ [])
  let matched_s := ((List.range n).filter (fun i => i ∈ ids_to_keep)).map
    (fun i => median ((speed_ids i).map Prod.snd))
  let matched_d := ((List.range n).filter (fun i => i ∈ ids_to_keep)).map
    (fun i => median ((dir_ids i).map Prod.snd))
  let matched_t := ((List.range n).filter (fun i => i ∈ ids_to_keep)).map
    (fun i => median ((temp_ids i).map Prod.snd))
  let v := (matched_s.zip matched_d).map
    (fun p => p.1 * Real.cos ((p.2 - 180) * Real.pi / 180))
  let u := (matched_s.zip matched_d).map
    (fun p => p.1 * Real.sin ((p.2 - 180) * Real.pi / 180))
  ({ speed := matched_s, phi := matched_d, t := matched_t, u := u, v := v },
   ids_to_keep.map (fun i => forecast_dates.getD i 0))

/-- One loop body of correlate_marginals: the first swap index of iteration i
is i % N, the partner is chosen by the rng oracle among the indices whose
value lies within the swap window of the first value, and the two entries are
exchanged (simultaneous Python tuple assignment). -/
noncomputable def swapStep (choice : ℕ → List ℕ → ℕ) (w : ℝ) (N : ℕ) (i : ℕ)
    (y : List ℝ) : List ℝ :=
  let i_first := i % N
  let valid := (List.range N).filter (fun k => |y.getD k 0 - y.getD i_first 0| < w)
  let i_swp := choice i valid
  (y.set i_first (y.getD i_swp 0)).set i_swp (y.getD i_first 0)

/-- The for-loop of correlate_marginals with explicit fuel: swap, then stop
with the current arrangement as soon as the correlation has dropped to ≤ rho;
when the fuel (the iteration budget) runs out the for-else raise fires. -/
noncomputable def corrLoop (xs : List ℝ) (rho : ℝ) (choice : ℕ → List ℕ → ℕ)
    (w : ℝ) (N : ℕ) : ℕ → ℕ → List ℝ → Except String (List ℝ)
  | 0, _, _ => .error "did not reach desired correlation coefficient!"
  | fuel + 1, i, y =>
    let y' := swapStep choice w N i y
    if pearson xs y' ≤ rho then .ok y'
    else corrLoop xs rho choice w N fuel (i + 1) y'

/-- Source translation of correlate_marginals.  X is represented by its speed
column; the rng is the oracle choice.  The result pairs the (sorted) speed
column with the final arrangement of y; a raise is Except.error. -/
noncomputable def correlate_marginals (speeds y : List ℝ) (rho : ℝ)
    (choice : ℕ → List ℕ → ℕ) : Except String (List ℝ × List ℝ) :=
  let xs := speeds.insertionSort (· ≤ ·)
  let y_srtd := y.insertionSort (· ≤ ·)
  let swp_window := (y_srtd.getLast?.getD 0 - y_srtd.headD 0) / 15
  let N := y.length
  (corrLoop xs rho choice swp_window N (100 * N) 0 y_srtd).map (fun yf => (xs, yf))

/-- State of the X argument's speed column after a call of
correlate_marginals: X.sort_values(..., inplace=True) has reordered the rows
in place before the loop runs, and neither the loop, the column insertion nor
the raise restores the original order. -/
noncomputable def correlate_marginals_postX (speeds : List ℝ) : List ℝ :=
  speeds.insertionSort (· ≤ ·)

/-- The sequence of arrangements visited by the loop of correlate_marginals
when the swaps start at iteration number i0. -/
noncomputable def ySeqFrom (choice : ℕ → List ℕ → ℕ) (w : ℝ) (N : ℕ) (i0 : ℕ)
    (y : List ℝ) : ℕ → List ℝ
  | 0 => y
  | k + 1 => swapStep choice w N (i0 + k) (ySeqFrom choice w N i0 y k)

/-- Aligned atmospheric profile arrays for the Osborn model; a numpy array of
length n is modelled as a function Fin n → ℝ, so that all numpy operations
act elementwise. -/
structure OsbornInputs (n : ℕ) where
  p : Fin n → ℝ
  t : Fin n → ℝ
  dpdz : Fin n → ℝ
  dtdz : Fin n → ℝ
  dudz : Fin n → ℝ
  dvdz : Fin n → ℝ

/-- Source translation of osborn_theta: potential temperature and its
vertical derivative. -/
noncomputable def osborn_theta {n : ℕ} (inputs : OsbornInputs n) :
    (Fin n → ℝ) × (Fin n → ℝ) :=
  let Rcp : ℝ := 0.286
  let P0 : ℝ := 1000 * 100
  let theta := fun i => inputs.t i * (P0 / inputs.p i) ^ Rcp
  let amp := fun i => (P0 / inputs.p i) ^ Rcp
  let p_ratio := fun i => inputs.dpdz i / inputs.p i
  (theta, fun i => amp i * (inputs.dtdz i - Rcp * inputs.t i * p_ratio i))

/-- Source translation of osborn: the Osborn et al 2018 Cn2 model. -/
noncomputable def osborn {n : ℕ} (inputs : OsbornInputs n) : Fin n → ℝ :=
  let g : ℝ := 9.8
  let td := osborn_theta inputs
  let thetaz := td.1
  let dthetaz := td.2
  let windshear := fun i => inputs.dudz i ^ 2 + inputs.dvdz i ^ 2
  let lz := fun i => Real.sqrt (2 * thetaz i / g * windshear i / |dthetaz i|)
  let numerator := fun i => 80e-6 * inputs.p i * dthetaz i
  let denominator := fun i => inputs.t i * thetaz i
  fun i => lz i ^ ((4 : ℝ) / 3) * (numerator i / denominator i) ^ 2

/-- The elementwise Cn2 formula exactly as the specification states it, to be
compared with the source translation osborn. -/
noncomputable def osbornSpecFormula (p t dpdz dtdz dudz dvdz : ℝ) : ℝ :=
  let Theta := t * (100000 / p) ^ (0.286 : ℝ)
  let dTheta := (100000 / p) ^ (0.286 : ℝ) * (dtdz - 0.286 * t * (dpdz / p))
  let E := dudz ^ 2 + dvdz ^ 2
  let L := Real.sqrt (2 * E * Theta / (9.8 * |dTheta|))
  L ^ ((4 : ℝ) / 3) * (80e-6 * p * dTheta / (t * Theta)) ^ 2

/-- Modelled from the spec: the repository sources provided contain no
hufnagel function (only utils.py is present), so the Hufnagel model is taken
from the specification's closed form: heights below 3 km raise a domain
error, otherwise Cn2(z) = 2.2e-53 z'^10 (v/27)^2 exp(-z' 1e-3)
+ 1e-16 exp(-z' 1.5e-3) with z' = 1000 z. -/
noncomputable def hufnagel (z : List ℝ) (v : ℝ) : Except String (List ℝ) :=
  if z.any (fun zk => zk < 3) then
    .error "hufnagel model only valid for z >= 3km"
  else
    .ok (z.map (fun zk =>
      let z' := zk * 1000
      2.2e-53 * z' ^ (10 : ℕ) * (v / 27) ^ 2 * Real.exp (-z' * 1e-3)
        + 1e-16 * Real.exp (-z' * 1.5e-3)))

/-- np.argmin over a list of options, phrased as a fold that keeps the
current best and replaces it only on a strictly smaller distance, so that the
first minimiser wins, as np.argmin does. -/
noncomputable def pickMin (prev : ℝ) : List ℝ → ℝ → ℝ
  | [], best => best
  | o :: rest, best => pickMin prev rest (if |o - prev| < |best - prev| then o else best)

/-- One step of the smoothing pass of smooth_dir: among
next + [720, 360, 0, -360, -720] (in that order) choose the option with the
smallest jump from the current smoothed value. -/
noncomputable def smoothNext (prev next : ℝ) : ℝ :=
  pickMin prev [next + 360, next + 0, next - 360, next - 720] (next + 720)

/-- The candidate set of the spec for one smoothing step, in the order the
code builds it: next + [720, 360, 0, -360, -720]. -/
noncomputable def optionsList (next : ℝ) : List ℝ :=
  [next + 720, next + 360, next, next - 360, next - 720]

/-- The main for-loop of smooth_dir after the first element is fixed. -/
noncomputable def smoothSeq (prev : ℝ) : List ℝ → List ℝ
  | [] => []
  | d :: ds =>
    let c := smoothNext prev d
    c :: smoothSeq c ds

/-- The greedy pass of smooth_dir before the mean adjustment: the first
element is copied, every later one is chosen by smoothNext. -/
noncomputable def smoothPass : List ℝ → List ℝ
  | [] => []
  | d :: ds => d :: smoothSeq d ds

/-- Sum of a uniformly shifted list. -/
theorem sum_map_sub (s : List ℝ) (c : ℝ) :
    (s.map (fun d => d - c)).sum = s.sum - s.length * c := by
  induction s with
  | nil => simp
  | cons a tl ih =>
    simp [ih]
    ring

/-- Termination auxiliary for the while loops of smooth_dir: shifting every
element of a nonempty list shifts the mean. -/
theorem mean_map_sub (s : List ℝ) (hs : s ≠ []) (c : ℝ) :
    mean (s.map (fun d => d - c)) = mean s - c := by
  have hlen : (s.length : ℝ) ≠ 0 := by
    simpa using fun h => hs (List.length_eq_zero.mp h)
  simp only [mean, sum_map_sub, List.length_map]
  field_simp

/-- Termination auxiliary for the while loops of smooth_dir. -/
theorem mean_map_add (s : List ℝ) (hs : s ≠ []) (c : ℝ) :
    mean (s.map (fun d => d + c)) = mean s + c := by
  have h := mean_map_sub s hs (-c)
  simpa using h

/-- The first while loop of smooth_dir: subtract 360 from every entry while
the mean exceeds 180. -/
noncomputable def shiftDown (s : List ℝ) : List ℝ :=
  if h : 180 < mean s then shiftDown (s.map (fun d => d - 360)) else s
termination_by (Int.ceil ((mean s - 180) / 360)).toNat
decreasing_by
  have hs : s ≠ [] := by
    intro hnil
    rw [hnil] at h
    simp [mean] at h
    linarith
  rw [mean_map_sub s hs 360]
  have harg : (mean s - 360 - 180) / 360 = (mean s - 180) / 360 - 1 := by ring
  rw [harg]
  have hceil : ⌈(mean s - 180) / 360 - 1⌉ = ⌈(mean s - 180) / 360⌉ - 1 := by
    have := Int.ceil_sub_int ((mean s - 180) / 360) 1
    simpa using this
  rw [hceil]
  have hpos : 0 < ⌈(mean s - 180) / 360⌉ := by
    rw [Int.ceil_pos]
    apply div_pos (by linarith) (by norm_num)
  omega

/-- The second while loop of smooth_dir: add 360 to every entry while the
mean is below -180. -/
noncomputable def shiftUp (s : List ℝ) : List ℝ :=
  if h : mean s < -180 then shiftUp (s.map (fun d => d + 360)) else s
termination_by (Int.ceil ((-180 - mean s) / 360)).toNat
decreasing_by
  have hs : s ≠ [] := by
    intro hnil
    rw [hnil] at h
    simp [mean] at h
    linarith
  rw [mean_map_add s hs 360]
  have harg : (-180 - (mean s + 360)) / 360 = (-180 - mean s) / 360 - 1 := by ring
  rw [harg]
  have hceil : ⌈(-180 - mean s) / 360 - 1⌉ = ⌈(-180 - mean s) / 360⌉ - 1 := by
    have := Int.ceil_sub_int ((-180 - mean s) / 360) 1
    simpa using this
  rw [hceil]
  have hpos : 0 < ⌈(-180 - mean s) / 360⌉ := by
    rw [Int.ceil_pos]
    apply div_pos (by linarith) (by norm_num)
  omega

/-- Source translation of smooth_dir: greedy unwrap pass followed by the two
mean-adjustment while loops. -/
noncomputable def smooth_dir (directions : List ℝ) : List ℝ :=
  shiftUp (shiftDown (smoothPass directions))

/-- Python's float modulo a % b, with result in [0, b) for b > 0. -/
noncomputable def fmod (a b : ℝ) : ℝ := a - b * ⌊a / b⌋

/-- Source translation of to_direction: np.arctan2 u v is the argument of the
complex number v + u i. -/
noncomputable def to_direction (u v : ℝ) : ℝ :=
  let d := Complex.arg ⟨v, u⟩ * (180 / Real.pi)
  fmod (d + 180) 360

/-- The params dict handed to convert_to_galsim, with its array-valued keys. -/
structure Params where
  v : List ℝ
  u : List ℝ
  speed : List ℝ
  phi : List ℝ
  h : List ℝ
  edges : List ℝ
  j : List ℝ

/-- Source translation of convert_to_galsim.  The Python function mutates the
params dict in place and returns it; the value computed here is therefore
both the returned dict and the post-call state of the argument. -/
noncomputable def convert_to_galsim (params : Params) (alt az : ℝ)
    (lat : ℝ := -30.2446) (lon : ℝ := -70.7494) : Params :=
  let nez := get_both_nez alt az lat lon
  let obs_nez := nez.1
  let sky_nez := nez.2
  let sky := (params.v.zip params.u).map (fun vu =>
    let obs_wind := vu.1 • obs_nez.1 + vu.2 • obs_nez.2.1
    (dot sky_nez.1 obs_wind, dot sky_nez.2.1 obs_wind, dot sky_nez.2.2 obs_wind))
  let sky_v := sky.map (fun w => w.1)
  let sky_u := sky.map (fun w => w.2.1)
  let speed := (sky_v.zip sky_u).map (fun p => Real.sqrt (p.1 ^ 2 + p.2 ^ 2))
  let phi := (sky_u.zip sky_v).map (fun p => to_direction p.1 p.2)
  let sec_zenith := 1 / Real.cos (deg2rad (90 - alt))
  { v := sky_v, u := sky_u, speed := speed, phi := phi,
    h := params.h.map (fun hv => hv * sec_zenith),
    edges := params.edges.map (fun hv => hv * sec_zenith),
    j := params.j.map (fun jv => jv * sec_zenith) }

/-- A concrete spline model used to instantiate abstract-spline theorems:
the fitted function is the identity in the evaluation point. -/
def idSpline : SplineM := ⟨fun _ _ _ xv => xv⟩

/-- Element i of a map over List.range. -/
theorem getD_map_range {α : Type} (f : ℕ → α) (m i : ℕ) (hi : i < m) (d : α) :
    ((List.range m).map f).getD i d = f i := by
  rw [List.getD_eq_getElem?_getD]
  simp [List.getElem?_range, hi]

/-- C1: for aligned inputs with nonzero p and t, the Osborn model computes,
elementwise, Cn2 = L^(4/3) * (80e-6 p dTheta / (t Theta))^2 with
Theta = t (100000/p)^0.286, dTheta = (100000/p)^0.286 (dtdz - 0.286 t dpdz/p),
E = dudz^2 + dvdz^2 and L = sqrt(2 E Theta / (9.8 |dTheta|)), the absolute
value appearing inside L only. -/
theorem C1_osborn_matches_spec {n : ℕ} (inputs : OsbornInputs n)
    (hp : ∀ i, inputs.p i ≠ 0) (ht : ∀ i, inputs.t i ≠ 0) (i : Fin n) :
    osborn inputs i =
      osbornSpecFormula (inputs.p i) (inputs.t i) (inputs.dpdz i)
        (inputs.dtdz i) (inputs.dudz i) (inputs.dvdz i) := by
  unfold osborn osbornSpecFormula osborn_theta
  have hP0 : (1000 * 100 : ℝ) = 100000 := by norm_num
  simp only [hP0]
  congr 2
  ring

/-- Witness for C1 at a concrete one-point profile. -/
theorem C1_witness :
    osborn ⟨fun _ => 1, fun _ => 1, fun _ => 1, fun _ => 1, fun _ => 1, fun _ => 1⟩
        (0 : Fin 1) =
      osbornSpecFormula 1 1 1 1 1 1 :=
  C1_osborn_matches_spec _ (fun _ => one_ne_zero) (fun _ => one_ne_zero) 0

/-- The length of a linspace. -/
theorem linspace_length (a b : ℝ) (n : ℕ) : (linspace a b n).length = n := by
  unfold linspace
  rw [List.length_map, List.length_range]

/-- The length of an integrate_in_bins result. -/
theorem integrate_in_bins_length (M : SplineM) (cn2 h edges : List ℝ) :
    (integrate_in_bins M cn2 h edges).length = edges.length - 1 := by
  unfold integrate_in_bins
  rw [List.length_map, List.length_map, List.length_range]

/-- The value of bin i of an integrate_in_bins result. -/
theorem integrate_in_bins_getD (M : SplineM) (cn2 h edges : List ℝ) (i : ℕ)
    (hi : i < edges.length - 1) :
    (integrate_in_bins M cn2 h edges).getD i 0 =
      1000 * trapz
        (((linspace (edges.headD 0) (edges.getLast?.getD 0) 1000).filter
            (fun xv => xv < edges.getD (i + 1) 0 ∧ edges.getD i 0 < xv)).map
          (fun xv => Real.exp (M.eval 0 h (cn2.map Real.log) xv)))
        ((linspace (edges.headD 0) (edges.getLast?.getD 0) 1000).filter
          (fun xv => xv < edges.getD (i + 1) 0 ∧ edges.getD i 0 < xv)) := by
  unfold integrate_in_bins interpolate
  simp only [List.map_map]
  rw [getD_map_range _ _ _ hi]
  simp only [Function.comp_def]
  ring

/-- C2: integrate_in_bins draws exactly 1000 equally spaced samples over
[edges[0], edges[-1]]; each bin's value is 1000 times the trapezoidal
integral, over the samples strictly inside the bin, of the exponential of the
smoothing-0 spline fitted to (h, log cn2); the result has len(edges)-1
entries. -/
theorem C2_integrate_in_bins (M : SplineM) (cn2 h edges : List ℝ)
    (hpos : ∀ c ∈ cn2, 0 < c) (hmono : edges.Chain' (· < ·))
    (hlen : 2 ≤ edges.length) :
    (linspace (edges.headD 0) (edges.getLast?.getD 0) 1000).length = 1000 ∧
    (integrate_in_bins M cn2 h edges).length = edges.length - 1 ∧
    ∀ i, i < edges.length - 1 →
      (integrate_in_bins M cn2 h edges).getD i 0 =
        1000 * trapz
          (((linspace (edges.headD 0) (edges.getLast?.getD 0) 1000).filter
              (fun xv => xv < edges.getD (i + 1) 0 ∧ edges.getD i 0 < xv)).map
            (fun xv => Real.exp (M.eval 0 h (cn2.map Real.log) xv)))
          ((linspace (edges.headD 0) (edges.getLast?.getD 0) 1000).filter
            (fun xv => xv < edges.getD (i + 1) 0 ∧ edges.getD i 0 < xv)) :=
  ⟨linspace_length _ _ _, integrate_in_bins_length _ _ _ _,
   fun i hi => integrate_in_bins_getD M cn2 h edges i hi⟩

/-- Witness for C2 on a concrete profile and bin edges. -/
theorem C2_witness :
    (integrate_in_bins idSpline [1] [0] [0, 1]).length =
      ([(0 : ℝ), 1] : List ℝ).length - 1 :=
  (C2_integrate_in_bins idSpline [1] [0] [0, 1]
    (by intro c hc; simp at hc; simp [hc])
    (by simp [List.chain'_cons])
    (by simp)).2.1

/-- C3: a bin with none of the 1000 grid samples strictly inside it gets
J = 0, and integrate_in_bins still returns a list of length len(edges)-1. -/
theorem C3_empty_bin_is_zero (M : SplineM) (cn2 h edges : List ℝ) (i : ℕ)
    (hi : i < edges.length - 1)
    (hempty : (linspace (edges.headD 0) (edges.getLast?.getD 0) 1000).filter
        (fun xv => xv < edges.getD (i + 1) 0 ∧ edges.getD i 0 < xv) = []) :
    (integrate_in_bins M cn2 h edges).getD i 0 = 0 ∧
    (integrate_in_bins M cn2 h edges).length = edges.length - 1 := by
  refine ⟨?_, integrate_in_bins_length _ _ _ _⟩
  rw [integrate_in_bins_getD M cn2 h edges i hi, hempty]
  simp [trapz]

/-- Witness for C3: with edges [0, 1, 2, 1998] the grid over [0, 1998] has
step 2, so the bin (1, 2) contains no interior sample. -/
theorem C3_witness :
    (integrate_in_bins idSpline [1] [0] [0, 1, 2, 1998]).getD 1 0 = 0 ∧
    (integrate_in_bins idSpline [1] [0] [0, 1, 2, 1998]).length =
      ([(0 : ℝ), 1, 2, 1998] : List ℝ).length - 1 := by
  apply C3_empty_bin_is_zero idSpline [1] [0] [0, 1, 2, 1998] 1 (by norm_num)
  rw [List.filter_eq_nil_iff]
  intro xv hxv
  unfold linspace at hxv
  rw [List.mem_map] at hxv
  obtain ⟨k, hk, rfl⟩ := hxv
  rw [List.mem_range] at hk
  have h999 : ((1000 - 1 : ℕ) : ℝ) = 999 := by norm_num
  have hlast : (([0, 1, 2, 1998] : List ℝ).getLast?.getD 0) = 1998 := rfl
  have hhead : (([0, 1, 2, 1998] : List ℝ).headD 0) = 0 := rfl
  simp only [List.getD_cons_succ, List.getD_cons_zero, decide_eq_true_eq, h999,
    hlast, hhead]
  have hx : (0 : ℝ) + (1998 - 0) * (k : ℝ) / 999 = 2 * k := by
    field_simp
    ring
  rw [hx]
  rintro ⟨h1, h2⟩
  have hk1 : (k : ℝ) < 1 := by linarith
  have hk0 : k = 0 := by exact_mod_cast Nat.lt_one_iff.mp (by exact_mod_cast hk1)
  rw [hk0] at h2
  norm_num at h2

/-- C6: the Hufnagel model (modelled from the spec, see hufnagel) raises a
domain error iff some height is below 3 km; otherwise it returns the
elementwise closed form, strictly positive and of the input's length. -/
theorem C6_hufnagel_domain (z : List ℝ) (v : ℝ) :
    ((∃ zk ∈ z, zk < 3) →
      hufnagel z v = .error "hufnagel model only valid for z >= 3km") ∧
    ((∀ zk ∈ z, 3 ≤ zk) →
      ∃ out, hufnagel z v = .ok out ∧
        out = z.map (fun zk =>
          2.2e-53 * (zk * 1000) ^ (10 : ℕ) * (v / 27) ^ 2 *
              Real.exp (-(zk * 1000) * 1e-3)
            + 1e-16 * Real.exp (-(zk * 1000) * 1.5e-3)) ∧
        (∀ c ∈ out, 0 < c) ∧ out.length = z.length) := by
  constructor
  · intro hex
    unfold hufnagel
    rw [if_pos]
    simp only [List.any_eq_true, decide_eq_true_eq]
    exact hex
  · intro hall
    unfold hufnagel
    rw [if_neg]
    · refine ⟨_, rfl, rfl, ?_, by simp⟩
      intro c hc
      simp only [List.mem_map] at hc
      obtain ⟨zk, hzk, rfl⟩ := hc
      have h2 : (0:ℝ) < 1e-16 * Real.exp (-(zk * 1000) * 1.5e-3) := by positivity
      have h1 : (0:ℝ) ≤ 2.2e-53 * (zk * 1000) ^ (10 : ℕ) * (v / 27) ^ 2 *
          Real.exp (-(zk * 1000) * 1e-3) := by positivity
      linarith
    · simp only [List.any_eq_true, decide_eq_true_eq]
      push_neg
      exact hall

/-- Witness for C6: z = [2] raises the domain error and z = [3, 4, 5], v = 10
gives a strictly positive array of length 3. -/
theorem C6_witness :
    hufnagel [2] 10 = .error "hufnagel model only valid for z >= 3km" ∧
    ∃ out, hufnagel [(3 : ℝ), 4, 5] 10 = .ok out ∧ (∀ c ∈ out, 0 < c) ∧
      out.length = 3 := by
  constructor
  · exact (C6_hufnagel_domain [2] 10).1 ⟨2, by simp, by norm_num⟩
  · obtain ⟨out, hok, _, hpos, hlenq⟩ :=
      (C6_hufnagel_domain [(3 : ℝ), 4, 5] 10).2
        (by intro zk hzk; simp at hzk; rcases hzk with h | h | h <;> rw [h] <;> norm_num)
    exact ⟨out, hok, hpos, by simpa using hlenq⟩

/-- C10: process_telemetry filters rather than nulls: the output speed series
holds exactly the nonzero input speeds below 40, the output directions the
nonzero input directions, and the output temperatures the nonzero input
temperatures shifted to Kelvin. -/
theorem C10_process_telemetry_filters (tel : Telemetry) (x : ℤ × ℝ) :
    (x ∈ (process_telemetry tel).speed ↔
      x ∈ tel.wind_speed ∧ x.2 ≠ 0 ∧ x.2 < 40) ∧
    (x ∈ (process_telemetry tel).phi ↔ x ∈ tel.wind_direction ∧ x.2 ≠ 0) ∧
    (x ∈ (process_telemetry tel).t ↔
      ∃ y ∈ tel.temperature, y.2 ≠ 0 ∧ x = (y.1, y.2 + 273.15)) := by
  unfold process_telemetry
  refine ⟨?_, ?_, ?_⟩
  · simp [List.mem_filter, and_assoc]
  · simp [List.mem_filter]
  · simp only [List.mem_map, List.mem_filter, decide_eq_true_eq]
    constructor
    · rintro ⟨y, ⟨hy, hy0⟩, rfl⟩
      exact ⟨y, hy, hy0, rfl⟩
    · rintro ⟨y, hy, hy0, rfl⟩
      exact ⟨y, ⟨hy, hy0⟩, rfl⟩

/-- A Python list comprehension over range(len(l)) guarded by a predicate on
l[i] equals a filter-then-map over l itself. -/
theorem range_filter_map_eq {α β : Type} (l : List α) (d : α) (p : α → Bool)
    (f : α → β) :
    ((List.range l.length).filter (fun i => p (l.getD i d))).map
        (fun i => f (l.getD i d)) =
      (l.filter p).map f := by
  induction l with
  | nil => simp
  | cons a tl ih =>
    rw [List.length_cons, List.range_succ_eq_map]
    cases hpa : p a with
    | false =>
      simp [List.filter_cons, hpa, List.filter_map, List.map_map, Function.comp_def,
        Nat.succ_eq_add_one]
      simpa [List.getD_eq_getElem?_getD] using ih
    | true =>
      simp [List.filter_cons, hpa, List.filter_map, List.map_map, Function.comp_def,
        Nat.succ_eq_add_one]
      simpa [List.getD_eq_getElem?_getD] using ih

/-- Filtering range n by membership in an already-filtered range is the
filter itself (the `i in ids_to_keep` test of match_telemetry). -/
theorem filter_mem_filter_range (n : ℕ) (q : ℕ → Bool) :
    (List.range n).filter (fun i => i ∈ (List.range n).filter q) =
      (List.range n).filter q := by
  apply List.filter_congr
  intro i hi
  simp [List.mem_filter, List.mem_range.mp hi]

/-- The combined comprehension pattern of match_telemetry: filter range(n) by
membership in ids_to_keep, then map a function of dates[i]. -/
theorem comprehension_eq {β : Type} (dates : List ℤ) (K : ℤ → Bool) (g : ℤ → β) :
    ((List.range dates.length).filter (fun i =>
        i ∈ (List.range dates.length).filter (fun i => K (dates.getD i 0)))).map
      (fun i => g (dates.getD i 0)) = (dates.filter K).map g := by
  rw [filter_mem_filter_range]
  exact range_filter_map_eq dates 0 K g

set_option maxHeartbeats 1000000 in
/-- C4: match_telemetry keeps exactly the forecast dates whose speed,
direction and temperature windows are all nonempty, in their original order,
and returns for each of them the median of each series' values strictly
within 30 minutes; all returned arrays are parallel to the surviving dates. -/
theorem C4_match_telemetry (tel : ProcessedTel) (dates : List ℤ) :
    (match_telemetry tel dates).2 =
      dates.filter (fun d =>
        window tel.speed d ≠ [] ∧ window tel.phi d ≠ [] ∧ window tel.t d ≠ []) ∧
    (match_telemetry tel dates).1.speed =
      (dates.filter (fun d =>
        window tel.speed d ≠ [] ∧ window tel.phi d ≠ [] ∧ window tel.t d ≠ [])).map
          (fun d => median ((window tel.speed d).map Prod.snd)) ∧
    (match_telemetry tel dates).1.phi =
      (dates.filter (fun d =>
        window tel.speed d ≠ [] ∧ window tel.phi d ≠ [] ∧ window tel.t d ≠ [])).map
          (fun d => median ((window tel.phi d).map Prod.snd)) ∧
    (match_telemetry tel dates).1.t =
      (dates.filter (fun d =>
        window tel.speed d ≠ [] ∧ window tel.phi d ≠ [] ∧ window tel.t d ≠ [])).map
          (fun d => median ((window tel.t d).map Prod.snd)) ∧
    (match_telemetry tel dates).1.speed.length = (match_telemetry tel dates).2.length ∧
    (match_telemetry tel dates).1.phi.length = (match_telemetry tel dates).2.length ∧
    (match_telemetry tel dates).1.t.length = (match_telemetry tel dates).2.length := by
  have hdates : (match_telemetry tel dates).2 =
      dates.filter (fun d =>
        window tel.speed d ≠ [] ∧ window tel.phi d ≠ [] ∧ window tel.t d ≠ []) := by
    have h0 := range_filter_map_eq dates 0
      (fun d => decide (window tel.speed d ≠ [] ∧ window tel.phi d ≠ [] ∧
        window tel.t d ≠ []))
      (fun d : ℤ => d)
    have h1 : (match_telemetry tel dates).2 =
        (dates.filter (fun d =>
          decide (window tel.speed d ≠ [] ∧ window tel.phi d ≠ [] ∧
            window tel.t d ≠ []))).map (fun d : ℤ => d) := h0
    rw [h1]
    simp
  have hspeed : (match_telemetry tel dates).1.speed =
      (dates.filter (fun d =>
        window tel.speed d ≠ [] ∧ window tel.phi d ≠ [] ∧ window tel.t d ≠ [])).map
          (fun d => median ((window tel.speed d).map Prod.snd)) :=
    comprehension_eq dates
      (fun d => decide (window tel.speed d ≠ [] ∧ window tel.phi d ≠ [] ∧
        window tel.t d ≠ []))
      (fun d => median ((window tel.speed d).map Prod.snd))
  have hphi : (match_telemetry tel dates).1.phi =
      (dates.filter (fun d =>
        window tel.speed d ≠ [] ∧ window tel.phi d ≠ [] ∧ window tel.t d ≠ [])).map
          (fun d => median ((window tel.phi d).map Prod.snd)) :=
    comprehension_eq dates
      (fun d => decide (window tel.speed d ≠ [] ∧ window tel.phi d ≠ [] ∧
        window tel.t d ≠ []))
      (fun d => median ((window tel.phi d).map Prod.snd))
  have ht : (match_telemetry tel dates).1.t =
      (dates.filter (fun d =>
        window tel.speed d ≠ [] ∧ window tel.phi d ≠ [] ∧ window tel.t d ≠ [])).map
          (fun d => median ((window tel.t d).map Prod.snd)) :=
    comprehension_eq dates
      (fun d => decide (window tel.speed d ≠ [] ∧ window tel.phi d ≠ [] ∧
        window tel.t d ≠ []))
      (fun d => median ((window tel.t d).map Prod.snd))
  refine ⟨hdates, hspeed, hphi, ht, ?_, ?_, ?_⟩
  · rw [hspeed, hdates, List.length_map]
  · rw [hphi, hdates, List.length_map]
  · rw [ht, hdates, List.length_map]

/-- Shifting the start of the swap sequence by one step. -/
theorem ySeqFrom_shift (choice : ℕ → List ℕ → ℕ) (w : ℝ) (N i0 : ℕ) (y : List ℝ)
    (k : ℕ) :
    ySeqFrom choice w N i0 y (k + 1) =
      ySeqFrom choice w N (i0 + 1) (swapStep choice w N i0 y) k := by
  induction k with
  | zero => rfl
  | succ k ih =>
    rw [ySeqFrom, ih, ySeqFrom]
    congr 1
    omega

/-- If the correlation first drops below rho at swap K within the budget,
corrLoop returns the arrangement after swap K+1. -/
theorem corrLoop_ok (xs : List ℝ) (rho : ℝ) (choice : ℕ → List ℕ → ℕ) (w : ℝ)
    (N : ℕ) :
    ∀ fuel i0 y K, K < fuel →
      pearson xs (ySeqFrom choice w N i0 y (K + 1)) ≤ rho →
      (∀ j, j < K → ¬ pearson xs (ySeqFrom choice w N i0 y (j + 1)) ≤ rho) →
      corrLoop xs rho choice w N fuel i0 y =
        .ok (ySeqFrom choice w N i0 y (K + 1)) := by
  intro fuel
  induction fuel with
  | zero =>
    intro i0 y K hK
    omega
  | succ fuel ih =>
    intro i0 y K hK hP hleast
    rw [corrLoop]
    by_cases h : pearson xs (swapStep choice w N i0 y) ≤ rho
    · rw [if_pos h]
      have hK0 : K = 0 := by
        by_contra hne
        exact hleast 0 (Nat.pos_of_ne_zero hne) (by simpa [ySeqFrom] using h)
      subst hK0
      simp [ySeqFrom]
    · rw [if_neg h]
      cases K with
      | zero => exact absurd (by simpa [ySeqFrom] using hP) h
      | succ K' =>
        rw [ySeqFrom_shift] at hP
        have hrec := ih (i0 + 1) (swapStep choice w N i0 y) K' (by omega) hP ?_
        · rw [hrec, ← ySeqFrom_shift]
        · intro j hj
          have := hleast (j + 1) (by omega)
          rw [ySeqFrom_shift] at this
          exact this

/-- If the correlation never drops below rho within the budget, corrLoop
raises the convergence-failure error. -/
theorem corrLoop_error (xs : List ℝ) (rho : ℝ) (choice : ℕ → List ℕ → ℕ) (w : ℝ)
    (N : ℕ) :
    ∀ fuel i0 y, (∀ k, k < fuel → ¬ pearson xs (ySeqFrom choice w N i0 y (k + 1)) ≤ rho) →
      corrLoop xs rho choice w N fuel i0 y =
        .error "did not reach desired correlation coefficient!" := by
  intro fuel
  induction fuel with
  | zero =>
    intro i0 y h
    rw [corrLoop]
  | succ fuel ih =>
    intro i0 y h
    rw [corrLoop]
    have h0 : ¬ pearson xs (swapStep choice w N i0 y) ≤ rho := by
      have := h 0 (Nat.succ_pos _)
      simpa [ySeqFrom] using this
    rw [if_neg h0]
    apply ih
    intro k hk
    have := h (k + 1) (by omega)
    rw [ySeqFrom_shift] at this
    exact this

/-- C5: correlate_marginals performs at most 100 N swap iterations (first
swap index of iteration i being i % N, as recorded in swapStep), stops at the
first iteration after which the Pearson correlation of the paired data is at
most rho and returns the pairing, and raises the distinct
convergence-failure ValueError when no iteration within the budget reaches
the target. -/
theorem C5_correlate_marginals (speeds y : List ℝ) (rho : ℝ)
    (choice : ℕ → List ℕ → ℕ) (xs y0 : List ℝ) (w : ℝ) (N : ℕ)
    (hxs : xs = speeds.insertionSort (· ≤ ·))
    (hy0 : y0 = y.insertionSort (· ≤ ·))
    (hw : w = (y0.getLast?.getD 0 - y0.headD 0) / 15)
    (hN : N = y.length) :
    (∀ K, K < 100 * N →
      pearson xs (ySeqFrom choice w N 0 y0 (K + 1)) ≤ rho →
      (∀ j, j < K → ¬ pearson xs (ySeqFrom choice w N 0 y0 (j + 1)) ≤ rho) →
      correlate_marginals speeds y rho choice =
        .ok (xs, ySeqFrom choice w N 0 y0 (K + 1))) ∧
    ((∀ k, k < 100 * N → ¬ pearson xs (ySeqFrom choice w N 0 y0 (k + 1)) ≤ rho) →
      correlate_marginals speeds y rho choice =
        .error "did not reach desired correlation coefficient!") := by
  subst hxs
  subst hy0
  subst hw
  subst hN
  constructor
  · intro K hK hP hleast
    simp only [correlate_marginals]
    rw [corrLoop_ok _ _ _ _ _ (100 * y.length) 0 _ K hK hP hleast]
    rfl
  · intro hall
    simp only [correlate_marginals]
    rw [corrLoop_error _ _ _ _ _ (100 * y.length) 0 _ hall]
    rfl

/-- The single swap iteration of the C5 witness run leaves [0] unchanged. -/
theorem ySeqFrom_witness_eval :
    ySeqFrom (fun _ _ => 0) 0 1 0 ([0] : List ℝ) 1 = [0] := by
  show swapStep (fun _ _ => 0) 0 1 (0 + 0) (ySeqFrom (fun _ _ => 0) 0 1 0 [0] 0) = [0]
  simp [ySeqFrom, swapStep]

/-- The Pearson correlation of the degenerate pair [0], [0] is 0. -/
theorem pearson_witness_eval : pearson [0] ([0] : List ℝ) = 0 := by
  simp [pearson, mean]

/-- Witness for C5: with one sample, target rho = 1 and an oracle always
choosing index 0, the first swap already satisfies the stopping test. -/
theorem C5_witness :
    correlate_marginals [0] [0] 1 (fun _ _ => 0) = Except.ok ([0], [0]) := by
  have h := (C5_correlate_marginals [0] [0] 1 (fun _ _ => 0) [0] [0] 0 1
      (by rfl) (by rfl) (by simp) (by simp)).1 0 (by norm_num)
      (by rw [ySeqFrom_witness_eval, pearson_witness_eval]; norm_num)
      (by omega)
  rw [ySeqFrom_witness_eval] at h
  exact h

/-- Evaluation of the in-place sort of a two-element speed column. -/
theorem insertionSort_two_one :
    ([2, 1] : List ℝ).insertionSort (· ≤ ·) = [1, 2] := by
  simp only [List.insertionSort, List.orderedInsert]
  rw [if_neg (by norm_num : ¬((2 : ℝ) ≤ 1))]

/-- C9 counterexample: the claim that every operation is pure fails on the
code.  correlate_marginals mutates X in place: X.sort_values(inplace=True)
reorders the speed column, so after a call with speed column [2, 1] the
argument holds [1, 2].  convert_to_galsim mutates params in place: with empty
u and v the post-call speed entry is the empty list, not the original [5]. -/
theorem C9_counterexample :
    correlate_marginals_postX [2, 1] ≠ ([2, 1] : List ℝ) ∧
    (convert_to_galsim ⟨[], [], [5], [], [], [], []⟩ 45 0 (-30.2446) (-70.7494)).speed ≠
      ([5] : List ℝ) := by
  constructor
  · unfold correlate_marginals_postX
    rw [insertionSort_two_one]
    intro hcontra
    rw [List.cons.injEq] at hcontra
    exact absurd hcontra.1 (by norm_num)
  · intro hcontra
    have hempty :
        (convert_to_galsim ⟨[], [], [5], [], [], [], []⟩ 45 0 (-30.2446) (-70.7494)).speed
          = [] := by
      simp [convert_to_galsim]
    rw [hempty] at hcontra
    exact List.noConfusion hcontra

/-- C9 amended: convert_to_galsim and correlate_marginals are not pure in
their array arguments.  correlate_marginals leaves X sorted by speed: the
dataframe it returns (and the caller's X afterwards) carries the sorted speed
column correlate_marginals_postX, which differs from an unsorted input such
as [2, 1]; convert_to_galsim returns its argument mutated in place, e.g.
overwriting speed [5] with the empty recomputed speed when u and v are
empty. -/
theorem C9_mutation (speeds y : List ℝ) (rho : ℝ) (choice : ℕ → List ℕ → ℕ) :
    correlate_marginals speeds y rho choice =
      (corrLoop (correlate_marginals_postX speeds) rho choice
        (((y.insertionSort (· ≤ ·)).getLast?.getD 0 -
          (y.insertionSort (· ≤ ·)).headD 0) / 15) y.length
        (100 * y.length) 0 (y.insertionSort (· ≤ ·))).map
        (fun yf => (correlate_marginals_postX speeds, yf)) ∧
    correlate_marginals_postX [2, 1] = [1, 2] ∧
    (convert_to_galsim ⟨[], [], [5], [], [], [], []⟩ 45 0 (-30.2446) (-70.7494)).speed =
      [] := by
  refine ⟨rfl, ?_, by simp [convert_to_galsim]⟩
  unfold correlate_marginals_postX
  exact insertionSort_two_one

/-- pickMin returns one of the candidates (the initial best included). -/
theorem pickMin_mem (prev : ℝ) :
    ∀ (l : List ℝ) (best : ℝ), pickMin prev l best ∈ best :: l := by
  intro l
  induction l with
  | nil =>
    intro best
    simp [pickMin]
  | cons o rest ih =>
    intro best
    rw [pickMin]
    by_cases h : |o - prev| < |best - prev|
    · rw [if_pos h]
      have := ih o
      simp only [List.mem_cons] at this ⊢
      tauto
    · rw [if_neg h]
      have := ih best
      simp only [List.mem_cons] at this ⊢
      tauto

/-- pickMin returns a candidate of minimal distance to prev. -/
theorem pickMin_le (prev : ℝ) :
    ∀ (l : List ℝ) (best c : ℝ), c ∈ best :: l →
      |pickMin prev l best - prev| ≤ |c - prev| := by
  intro l
  induction l with
  | nil =>
    intro best c hc
    simp only [List.mem_cons, List.not_mem_nil, or_false] at hc
    subst hc
    simp [pickMin]
  | cons o rest ih =>
    intro best c hc
    rw [pickMin]
    by_cases h : |o - prev| < |best - prev|
    · rw [if_pos h]
      rcases List.mem_cons.mp hc with heq | hc'
      · rw [heq]
        calc |pickMin prev rest o - prev| ≤ |o - prev| :=
            ih o o (List.mem_cons_self o rest)
          _ ≤ |best - prev| := le_of_lt h
      · exact ih o c hc'
    · rw [if_neg h]
      rcases List.mem_cons.mp hc with heq | hc'
      · rw [heq]
        exact ih best best (List.mem_cons_self best rest)
      · rcases List.mem_cons.mp hc' with heq2 | hc''
        · rw [heq2]
          calc |pickMin prev rest best - prev| ≤ |best - prev| :=
              ih best best (List.mem_cons_self best rest)
            _ ≤ |o - prev| := not_lt.mp h
        · exact ih best c (List.mem_cons.mpr (Or.inr hc''))

/-- The value smooth_dir picks for the next point is one of the five
candidates of the spec. -/
theorem smoothNext_mem (prev next : ℝ) : smoothNext prev next ∈ optionsList next := by
  have := pickMin_mem prev [next + 360, next + 0, next - 360, next - 720] (next + 720)
  simpa [smoothNext, optionsList] using this

/-- The value smooth_dir picks for the next point has the smallest jump from
the previous smoothed value among the five candidates. -/
theorem smoothNext_le (prev next c : ℝ) (hc : c ∈ optionsList next) :
    |smoothNext prev next - prev| ≤ |c - prev| := by
  apply pickMin_le
  simpa [optionsList] using hc

/-- Recurrence of the greedy pass along the tail. -/
theorem smoothSeq_step :
    ∀ (ds : List ℝ) (prev : ℝ) (i : ℕ), i + 1 < ds.length →
      (smoothSeq prev ds).getD (i + 1) 0 =
        smoothNext ((smoothSeq prev ds).getD i 0) (ds.getD (i + 1) 0) := by
  intro ds
  induction ds with
  | nil =>
    intro prev i hi
    simp at hi
  | cons d tl ih =>
    intro prev i hi
    rw [smoothSeq]
    cases i with
    | zero =>
      rw [List.getD_cons_succ, List.getD_cons_zero, List.getD_cons_succ]
      cases tl with
      | nil => simp at hi
      | cons e tl' => rfl
    | succ j =>
      rw [List.getD_cons_succ, List.getD_cons_succ, List.getD_cons_succ]
      exact ih (smoothNext prev d) j (by simpa using hi)

/-- Recurrence of the greedy pass: every element after the first is the
closest-candidate choice from the previous smoothed element. -/
theorem smoothPass_step (ds : List ℝ) (i : ℕ) (hi : i + 1 < ds.length) :
    (smoothPass ds).getD (i + 1) 0 =
      smoothNext ((smoothPass ds).getD i 0) (ds.getD (i + 1) 0) := by
  cases ds with
  | nil => simp at hi
  | cons d tl =>
    rw [smoothPass]
    cases i with
    | zero =>
      rw [List.getD_cons_succ, List.getD_cons_zero, List.getD_cons_succ]
      cases tl with
      | nil => simp at hi
      | cons e tl' => rfl
    | succ j =>
      rw [List.getD_cons_succ, List.getD_cons_succ, List.getD_cons_succ]
      exact smoothSeq_step tl d j (by simpa using hi)

/-- The greedy pass copies the first input element. -/
theorem smoothPass_headD (ds : List ℝ) (h : ds ≠ []) :
    (smoothPass ds).headD 0 = ds.headD 0 := by
  cases ds with
  | nil => exact absurd rfl h
  | cons d tl => rfl

/-- After the first while loop the mean is at most 180. -/
theorem shiftDown_mean_le (s : List ℝ) : mean (shiftDown s) ≤ 180 := by
  induction s using shiftDown.induct with
  | case1 s h ih =>
    rw [shiftDown, dif_pos h]
    exact ih
  | case2 s h =>
    rw [shiftDown, dif_neg h]
    linarith [not_lt.mp h]

/-- The first while loop only shifts the whole list down by multiples of 360. -/
theorem shiftDown_eq_map (s : List ℝ) :
    ∃ k : ℕ, shiftDown s = s.map (fun d => d - 360 * (k : ℝ)) := by
  induction s using shiftDown.induct with
  | case1 s h ih =>
    obtain ⟨k, hk⟩ := ih
    refine ⟨k + 1, ?_⟩
    rw [shiftDown, dif_pos h, hk, List.map_map]
    apply List.map_congr_left
    intro a _
    simp only [Function.comp]
    push_cast
    ring
  | case2 s h =>
    refine ⟨0, ?_⟩
    rw [shiftDown, dif_neg h]
    simp

/-- After the second while loop the mean is at least -180. -/
theorem shiftUp_mean_ge (s : List ℝ) : -180 ≤ mean (shiftUp s) := by
  induction s using shiftUp.induct with
  | case1 s h ih =>
    rw [shiftUp, dif_pos h]
    exact ih
  | case2 s h =>
    rw [shiftUp, dif_neg h]
    linarith [not_lt.mp h]

/-- The second while loop keeps the mean at most 180. -/
theorem shiftUp_mean_le (s : List ℝ) : mean s ≤ 180 → mean (shiftUp s) ≤ 180 := by
  induction s using shiftUp.induct with
  | case1 s h ih =>
    intro _
    rw [shiftUp, dif_pos h]
    apply ih
    have hs : s ≠ [] := by
      intro hnil
      rw [hnil] at h
      simp [mean] at h
      linarith
    rw [mean_map_add s hs 360]
    linarith
  | case2 s h =>
    intro hle
    rw [shiftUp, dif_neg h]
    exact hle

/-- The second while loop only shifts the whole list up by multiples of 360. -/
theorem shiftUp_eq_map (s : List ℝ) :
    ∃ k : ℕ, shiftUp s = s.map (fun d => d + 360 * (k : ℝ)) := by
  induction s using shiftUp.induct with
  | case1 s h ih =>
    obtain ⟨k, hk⟩ := ih
    refine ⟨k + 1, ?_⟩
    rw [shiftUp, dif_pos h, hk, List.map_map]
    apply List.map_congr_left
    intro a _
    simp only [Function.comp]
    push_cast
    ring
  | case2 s h =>
    refine ⟨0, ?_⟩
    rw [shiftUp, dif_neg h]
    simp

/-- smooth_dir is the greedy pass shifted uniformly by an integer multiple of
360 degrees. -/
theorem smooth_dir_shift (ds : List ℝ) :
    ∃ k : ℤ, smooth_dir ds = (smoothPass ds).map (fun x => x + 360 * (k : ℝ)) := by
  obtain ⟨kd, hkd⟩ := shiftDown_eq_map (smoothPass ds)
  obtain ⟨ku, hku⟩ := shiftUp_eq_map (shiftDown (smoothPass ds))
  refine ⟨(ku : ℤ) - kd, ?_⟩
  rw [smooth_dir, hku, hkd, List.map_map]
  apply List.map_congr_left
  intro a _
  simp only [Function.comp]
  push_cast
  ring

/-- Concrete evaluation of the greedy pass on the wrap-around example. -/
theorem smoothPass_350 : smoothPass [350, 10, 350] = [350, 370, 350] := by
  norm_num [smoothPass, smoothSeq, smoothNext, pickMin]

/-- Concrete evaluation of smooth_dir on the wrap-around example: the final
mean adjustment shifts all entries down by 360. -/
theorem smooth_dir_350 : smooth_dir [350, 10, 350] = [-10, 10, -10] := by
  rw [smooth_dir, smoothPass_350]
  rw [shiftDown, dif_pos (by norm_num [mean])]
  norm_num
  rw [shiftDown, dif_neg (by norm_num [mean])]
  rw [shiftUp, dif_neg (by norm_num [mean])]

/-- C8 counterexample: on the claim's own wrap-around input [350, 10, 350]
smooth_dir returns [-10, 10, -10], whose first element is not the input's
first value 350: the final mean adjustment moves the whole sequence. -/
theorem C8_counterexample :
    (smooth_dir [350, 10, 350]).headD 0 = -10 ∧ ((-10 : ℝ) ≠ 350) := by
  rw [smooth_dir_350]
  exact ⟨rfl, by norm_num⟩

/-- C8 amended: smooth_dir equals the greedy pass shifted by one uniform
integer multiple of 360; the greedy pass starts at the input's first value
and each later element is the candidate among next + [720, 360, 0, -360,
-720] closest to the previous smoothed value; the mean of the result lies in
[-180, 180]; and on [350, 10, 350] no adjacent jump of the output exceeds
180 in magnitude. -/
theorem C8_smooth_dir (ds : List ℝ) (hne : ds ≠ []) :
    (∃ k : ℤ, smooth_dir ds = (smoothPass ds).map (fun x => x + 360 * (k : ℝ))) ∧
    (smoothPass ds).headD 0 = ds.headD 0 ∧
    (∀ i, i + 1 < ds.length →
      (smoothPass ds).getD (i + 1) 0 ∈ optionsList (ds.getD (i + 1) 0) ∧
      ∀ c ∈ optionsList (ds.getD (i + 1) 0),
        |(smoothPass ds).getD (i + 1) 0 - (smoothPass ds).getD i 0| ≤
          |c - (smoothPass ds).getD i 0|) ∧
    (-180 ≤ mean (smooth_dir ds) ∧ mean (smooth_dir ds) ≤ 180) ∧
    (∀ i, i + 1 < (smooth_dir [350, 10, 350]).length →
      |(smooth_dir [350, 10, 350]).getD (i + 1) 0 -
          (smooth_dir [350, 10, 350]).getD i 0| ≤ 180) := by
  refine ⟨smooth_dir_shift ds, smoothPass_headD ds hne, ?_,
    ⟨shiftUp_mean_ge _, shiftUp_mean_le _ (shiftDown_mean_le _)⟩, ?_⟩
  · intro i hi
    rw [smoothPass_step ds i hi]
    exact ⟨smoothNext_mem _ _, fun c hc => smoothNext_le _ _ c hc⟩
  · intro i hi
    rw [smooth_dir_350] at hi ⊢
    have hi2 : i < 2 := by
      simp at hi
      omega
    interval_cases i
    · norm_num
    · norm_num

/-- Witness for C8 on the wrap-around example input. -/
theorem C8_witness :
    -180 ≤ mean (smooth_dir [350, 10, 350]) ∧ mean (smooth_dir [350, 10, 350]) ≤ 180 :=
  (C8_smooth_dir [350, 10, 350] (by simp)).2.2.2.1

/-- Components of a Vec3 sum. -/
@[simp] theorem add_x (a b : Vec3) : (a + b).x = a.x + b.x := rfl

/-- Components of a Vec3 sum. -/
@[simp] theorem add_y (a b : Vec3) : (a + b).y = a.y + b.y := rfl

/-- Components of a Vec3 sum. -/
@[simp] theorem add_z (a b : Vec3) : (a + b).z = a.z + b.z := rfl

/-- Components of a Vec3 scalar multiple. -/
@[simp] theorem smul_x (r : ℝ) (a : Vec3) : (r • a).x = r * a.x := rfl

/-- Components of a Vec3 scalar multiple. -/
@[simp] theorem smul_y (r : ℝ) (a : Vec3) : (r • a).y = r * a.y := rfl

/-- Components of a Vec3 scalar multiple. -/
@[simp] theorem smul_z (r : ℝ) (a : Vec3) : (r • a).z = r * a.z := rfl

/-- The dot product is symmetric. -/
theorem dot_comm (a b : Vec3) : dot a b = dot b a := by
  simp only [dot]
  ring

/-- The dot product is homogeneous on the left. -/
theorem dot_smul_left (r : ℝ) (a b : Vec3) : dot (r • a) b = r * dot a b := by
  simp only [dot, smul_x, smul_y, smul_z]
  ring

/-- The dot product is homogeneous on the right. -/
theorem dot_smul_right (r : ℝ) (a b : Vec3) : dot a (r • b) = r * dot a b := by
  simp only [dot, smul_x, smul_y, smul_z]
  ring

/-- A cross product is orthogonal to its second factor. -/
theorem dot_cross_right (a c : Vec3) : dot (cross a c) c = 0 := by
  simp only [dot, cross]
  ring

/-- A cross product is orthogonal to its first factor. -/
theorem dot_cross_left (a c : Vec3) : dot (cross a c) a = 0 := by
  simp only [dot, cross]
  ring

/-- Lagrange identity for the norm of a cross product. -/
theorem lagrange_identity (a c : Vec3) :
    dot (cross a c) (cross a c) = dot a a * dot c c - dot a c ^ 2 := by
  simp only [dot, cross]
  ring

/-- The triple cross product (a x c) x c. -/
theorem cross_cross_right (a c : Vec3) :
    cross (cross a c) c = dot a c • c + (-(dot c c)) • a := by
  apply Vec3.ext <;> simp only [dot, cross, add_x, add_y, add_z, smul_x, smul_y, smul_z] <;> ring

/-- A dot square is nonnegative. -/
theorem dot_self_nonneg (v : Vec3) : 0 ≤ dot v v := by
  simp only [dot]
  nlinarith [mul_self_nonneg v.x, mul_self_nonneg v.y, mul_self_nonneg v.z]

/-- A nonzero vector has positive dot square. -/
theorem dot_self_pos_of_ne (v : Vec3) (h : v ≠ ⟨0, 0, 0⟩) : 0 < dot v v := by
  rcases lt_or_eq_of_le (dot_self_nonneg v) with hlt | heq
  · exact hlt
  · exfalso
    apply h
    have h0 : dot v v = 0 := heq.symm
    simp only [dot] at h0
    have hx : v.x * v.x = 0 :=
      le_antisymm (by nlinarith [mul_self_nonneg v.y, mul_self_nonneg v.z])
        (mul_self_nonneg v.x)
    have hy : v.y * v.y = 0 :=
      le_antisymm (by nlinarith [mul_self_nonneg v.x, mul_self_nonneg v.z])
        (mul_self_nonneg v.y)
    have hz : v.z * v.z = 0 :=
      le_antisymm (by nlinarith [mul_self_nonneg v.x, mul_self_nonneg v.y])
        (mul_self_nonneg v.z)
    apply Vec3.ext
    · exact mul_self_eq_zero.mp hx
    · exact mul_self_eq_zero.mp hy
    · exact mul_self_eq_zero.mp hz

/-- For a unit boresight b whose cross product with the celestial pole axis is
nonzero, the derived sky triple is orthonormal and left-handed: the east and
north vectors built as in get_both_nez are unit, pairwise orthogonal and
orthogonal to b, and north x east is the negated boresight. -/
theorem sky_triple_props (b u e n : Vec3) (hb : dot b b = 1)
    (hu : u = cross ⟨0, 0, 1⟩ b) (hnz : u ≠ ⟨0, 0, 0⟩)
    (he : e = (1 / Real.sqrt (dot u u)) • u) (hn : n = cross b e) :
    dot n n = 1 ∧ dot e e = 1 ∧ dot n e = 0 ∧ dot n b = 0 ∧ dot e b = 0 ∧
    cross n e = (-1 : ℝ) • b := by
  have hpos : 0 < dot u u := dot_self_pos_of_ne u hnz
  have hs2 : Real.sqrt (dot u u) ^ 2 = dot u u := Real.sq_sqrt (le_of_lt hpos)
  have hub : dot u b = 0 := by
    rw [hu]
    exact dot_cross_right ⟨0, 0, 1⟩ b
  have hee : dot e e = 1 := by
    rw [he, dot_smul_left, dot_smul_right]
    have hrw : 1 / Real.sqrt (dot u u) * (1 / Real.sqrt (dot u u) * dot u u) =
        dot u u / Real.sqrt (dot u u) ^ 2 := by ring
    rw [hrw, hs2, div_self (ne_of_gt hpos)]
  have heb : dot e b = 0 := by
    rw [he, dot_smul_left, hub, mul_zero]
  have hbe : dot b e = 0 := by
    rw [dot_comm]
    exact heb
  have hnn : dot n n = 1 := by
    rw [hn, lagrange_identity, hb, hee, hbe]
    norm_num
  have hne' : dot n e = 0 := by
    rw [hn]
    exact dot_cross_right b e
  have hnb : dot n b = 0 := by
    rw [hn]
    exact dot_cross_left b e
  have hcross : cross n e = (-1 : ℝ) • b := by
    rw [hn, cross_cross_right, hbe, hee]
    apply Vec3.ext <;> simp
  exact ⟨hnn, hee, hne', hnb, heb, hcross⟩

/-- The boresight vector of get_both_nez is a unit vector, for every pointing
and observatory location. -/
theorem boresight_unit (alt az lat lon : ℝ) :
    dot ((get_both_nez alt az lat lon).2.2.2) ((get_both_nez alt az lat lon).2.2.2) = 1 := by
  simp only [get_both_nez, get_obs_nez, dot, cross, add_x, add_y, add_z,
    smul_x, smul_y, smul_z]
  linear_combination
    (Real.sin (deg2rad alt) ^ 2 * Real.cos (deg2rad lat) ^ 2 +
      Real.cos (deg2rad alt) ^ 2 * Real.cos (deg2rad az) ^ 2 * Real.sin (deg2rad lat) ^ 2 +
      Real.cos (deg2rad alt) ^ 2 * Real.sin (deg2rad az) ^ 2 *
        (Real.sin (deg2rad lat) ^ 2 + Real.cos (deg2rad lat) ^ 2) ^ 2 -
      2 * Real.sin (deg2rad alt) * Real.cos (deg2rad alt) * Real.cos (deg2rad az) *
        Real.sin (deg2rad lat) * Real.cos (deg2rad lat)) *
      (Real.sin_sq_add_cos_sq (deg2rad lon)) +
    (Real.sin (deg2rad alt) ^ 2 +
      Real.cos (deg2rad alt) ^ 2 * Real.cos (deg2rad az) ^ 2 +
      Real.cos (deg2rad alt) ^ 2 * Real.sin (deg2rad az) ^ 2 *
        (Real.sin (deg2rad lat) ^ 2 + Real.cos (deg2rad lat) ^ 2 + 1)) *
      (Real.sin_sq_add_cos_sq (deg2rad lat)) +
    Real.cos (deg2rad alt) ^ 2 * (Real.sin_sq_add_cos_sq (deg2rad az)) +
    (Real.sin_sq_add_cos_sq (deg2rad alt))

/-- Concrete evaluation of the sky triple when pointing at zenith from the
equator at longitude 0: north is the celestial pole axis, east is the
y-axis, boresight is the x-axis. -/
theorem gbn_equator_eval :
    (get_both_nez 90 0 0 0).2 =
      ((⟨0, 0, 1⟩ : Vec3), (⟨0, 1, 0⟩ : Vec3), (⟨1, 0, 0⟩ : Vec3)) := by
  have h90 : deg2rad 90 = Real.pi / 2 := by
    unfold deg2rad
    ring
  have h0 : deg2rad 0 = 0 := by
    unfold deg2rad
    ring
  simp only [get_both_nez, get_obs_nez, h90, h0, Real.sin_pi_div_two,
    Real.cos_pi_div_two, Real.sin_zero, Real.cos_zero, cross, dot]
  norm_num
  constructor <;> (apply Vec3.ext <;> norm_num)

/-- Concrete evaluation of the sky east vector when pointing at zenith from
the north pole: the boresight is the celestial pole axis, its cross product
with the axis vanishes, and the division by the zero norm produces the zero
vector. -/
theorem gbn_pole_east_eval : (get_both_nez 90 0 90 0).2.2.1 = (⟨0, 0, 0⟩ : Vec3) := by
  have h90 : deg2rad 90 = Real.pi / 2 := by
    unfold deg2rad
    ring
  have h0 : deg2rad 0 = 0 := by
    unfold deg2rad
    ring
  simp only [get_both_nez, get_obs_nez, h90, h0, Real.sin_pi_div_two,
    Real.cos_pi_div_two, Real.sin_zero, Real.cos_zero, cross, dot]
  norm_num
  apply Vec3.ext <;> norm_num

/-- C7 counterexample: the sky triple is not, for every input, an
orthonormal right-handed basis.  Pointing at zenith from lat = lon = 0,
north x east is the negated boresight, not the boresight (the triple is
left-handed); and pointing at zenith from the north pole the boresight is
parallel to the celestial pole axis and the east vector degenerates to the
zero vector, so its norm is 0, not 1. -/
theorem C7_counterexample :
    cross ((get_both_nez 90 0 0 0).2.1) ((get_both_nez 90 0 0 0).2.2.1) ≠
      (get_both_nez 90 0 0 0).2.2.2 ∧
    dot ((get_both_nez 90 0 90 0).2.2.1) ((get_both_nez 90 0 90 0).2.2.1) ≠ 1 := by
  constructor
  · rw [gbn_equator_eval]
    simp only [cross]
    intro hcontra
    have := congrArg Vec3.x hcontra
    norm_num at this
  · rw [gbn_pole_east_eval]
    simp only [dot]
    norm_num

/-- C7 amended: whenever the cross product of the celestial pole axis with
the boresight is nonzero, the sky triple (north, east, boresight) of
get_both_nez is orthonormal (three unit norms, three vanishing pairwise dot
products) and left-handed (north x east = -boresight); and for alt = 90 the
boresight always equals the observatory zenith vector. -/
theorem C7_sky_frame :
    (∀ lat lon alt az : ℝ,
      cross ⟨0, 0, 1⟩ ((get_both_nez alt az lat lon).2.2.2) ≠ ⟨0, 0, 0⟩ →
        dot ((get_both_nez alt az lat lon).2.1) ((get_both_nez alt az lat lon).2.1) = 1 ∧
        dot ((get_both_nez alt az lat lon).2.2.1) ((get_both_nez alt az lat lon).2.2.1) = 1 ∧
        dot ((get_both_nez alt az lat lon).2.2.2) ((get_both_nez alt az lat lon).2.2.2) = 1 ∧
        dot ((get_both_nez alt az lat lon).2.1) ((get_both_nez alt az lat lon).2.2.1) = 0 ∧
        dot ((get_both_nez alt az lat lon).2.1) ((get_both_nez alt az lat lon).2.2.2) = 0 ∧
        dot ((get_both_nez alt az lat lon).2.2.1) ((get_both_nez alt az lat lon).2.2.2) = 0 ∧
        cross ((get_both_nez alt az lat lon).2.1) ((get_both_nez alt az lat lon).2.2.1) =
          (-1 : ℝ) • (get_both_nez alt az lat lon).2.2.2) ∧
    (∀ lat lon az : ℝ,
      (get_both_nez 90 az lat lon).2.2.2 = (get_both_nez 90 az lat lon).1.2.2) := by
  constructor
  · intro lat lon alt az hnz
    have h := sky_triple_props ((get_both_nez alt az lat lon).2.2.2)
      (cross ⟨0, 0, 1⟩ ((get_both_nez alt az lat lon).2.2.2))
      ((get_both_nez alt az lat lon).2.2.1)
      ((get_both_nez alt az lat lon).2.1)
      (boresight_unit alt az lat lon) rfl hnz rfl rfl
    exact ⟨h.1, h.2.1, boresight_unit alt az lat lon, h.2.2.1, h.2.2.2.1,
      h.2.2.2.2.1, h.2.2.2.2.2⟩
  · intro lat lon az
    have h90 : deg2rad 90 = Real.pi / 2 := by
      unfold deg2rad
      ring
    simp only [get_both_nez, h90, Real.sin_pi_div_two, Real.cos_pi_div_two]
    apply Vec3.ext <;> simp

/-- Witness for C7 at zenith pointing from the equator, where the cross
product with the pole axis is nonzero. -/
theorem C7_witness :
    dot ((get_both_nez 90 0 0 0).2.2.1) ((get_both_nez 90 0 0 0).2.2.1) = 1 := by
  have hnz : cross ⟨0, 0, 1⟩ ((get_both_nez 90 0 0 0).2.2.2) ≠ ⟨0, 0, 0⟩ := by
    have hb : (get_both_nez 90 0 0 0).2.2.2 = (⟨1, 0, 0⟩ : Vec3) := by
      have := gbn_equator_eval
      have h2 := congrArg (fun p => p.2.2) this
      simpa using h2
    rw [hb]
    simp only [cross]
    intro hcontra
    have := congrArg Vec3.y hcontra
    norm_num at this
  exact (C7_sky_frame.1 0 0 90 0 hnz).2.1

end psfws
